import Mathlib

/-!
Verification of the precedent-retrieval and aggregation core of the
judicial-judgement-acceleration system.  The definitions below are a shallow
embedding of the Python source:

* `src/backend/agents/agent1_inlegal_faiss.py` — the standalone FAISS service
  (embedding, index persistence, `/analyze`, `/add_precedent`);
* `src/backend/agents/inlegalbert_helper.py` — the helper module
  (`embed_text`, `perform_ner`, `search_precedents`);
* `src/backend/agents/agent1.py` (`analyze_case`) — cross-document
  aggregation: entity dedup, fact/issue fallbacks, precedent dedup/ranking.

Vectors are lists of rationals; machine floats are modelled exactly by `ℚ`
(the claims under study concern counts, ordering and key-based dedup, not
floating-point rounding).
-/

namespace JudicialCore

/-! ## Entity aggregation (agent1.py, `analyze_case`)

An entity mention is a JSON dict such as `{"name": ..., "role": ...}`.
The `name` field may be missing (`none`).  The dedup loop in `analyze_case`
computes `name = person.get("name", "").lower()` and keeps the mention only
when `name` is truthy (non-empty) and not seen before. -/

structure EntityMention where
  name : Option String
  role : String
  deriving DecidableEq, Repr

/-- Python `str.lower()`: lowercase each character. -/
def pyLower (s : String) : String :=
  ⟨s.data.map Char.toLower⟩

/-- `person.get("name", "").lower()` from `analyze_case`. -/
def nameKey (e : EntityMention) : String :=
  pyLower (e.name.getD "")

/-- The first-seen-wins dedup loop of `analyze_case`, with the Python dict
`seen_people` modelled as the list of keys inserted so far (Python dicts
preserve insertion order, so `list(seen.values())` is exactly the kept
mentions in first-seen order). -/
def dedupGo (seen : List String) : List EntityMention → List EntityMention
  | [] => []
  | e :: rest =>
    if nameKey e ≠ "" ∧ nameKey e ∉ seen then
      e :: dedupGo (nameKey e :: seen) rest
    else
      dedupGo seen rest

/-- Entity deduplication as performed (identically) for each of the three
entity kinds in `analyze_case`. -/
def dedupEntities (l : List EntityMention) : List EntityMention :=
  dedupGo [] l

/-- The three per-kind entity lists aggregated across documents. -/
structure Entities where
  people : List EntityMention
  organizations : List EntityMention
  locations : List EntityMention
  deriving DecidableEq, Repr

/-- The entity-dedup block of `analyze_case`: the same first-seen-wins loop is
run on each of the three kinds independently. -/
def dedupAllEntities (es : Entities) : Entities :=
  ⟨dedupEntities es.people, dedupEntities es.organizations, dedupEntities es.locations⟩


/-! ## Vector index store (agent1_inlegal_faiss.py / inlegalbert_helper.py)

The FAISS `IndexFlatL2` holds a list of vectors; the parallel metadata list
holds `{"id": ..., "text": ...}` dicts.  `index.search` over a flat L2 index
is exact brute-force search by squared Euclidean distance, ascending. -/

abbrev Vec := List ℚ

structure MetaEntry where
  id : String
  text : String
  deriving DecidableEq, Repr

/-- In-memory state of the store: the FAISS index (its vectors, in insertion
order) and the parallel metadata list. -/
structure IndexState where
  vectors : List Vec
  meta : List MetaEntry
  deriving DecidableEq, Repr

/-- The on-disk pair (`precedent.index`, `meta.json`); `none` models the files
being absent or unreadable (`load_or_create_faiss` treats both alike). -/
structure Disk where
  files : Option (List Vec × List MetaEntry)
  deriving DecidableEq, Repr

/-- `load_or_create_faiss`: read both files, or start empty when absent or
corrupt. -/
def loadOrCreate (d : Disk) : IndexState :=
  match d.files with
  | some (vs, ms) => ⟨vs, ms⟩
  | none => ⟨[], []⟩

/-- The mutation step of `add_precedent`: `index.add(emb)` followed by
`meta.append({"id": case_id, "text": text})`. -/
def addRecord (st : IndexState) (v : Vec) (id text : String) : IndexState :=
  ⟨st.vectors ++ [v], st.meta ++ [⟨id, text⟩]⟩

/-- `save_index`: write both the index file and the metadata file. -/
def persistIndex (st : IndexState) : Disk :=
  ⟨some (st.vectors, st.meta)⟩

/-- The store operations named by the spec. -/
inductive StoreOp where
  | add (v : Vec) (id text : String)
  | persist
  | loadOrCreate
  deriving Repr

def runOp : IndexState × Disk → StoreOp → IndexState × Disk
  | (st, d), .add v id text => (addRecord st v id text, d)
  | (st, _), .persist => (st, persistIndex st)
  | (_, d), .loadOrCreate => (JudicialCore.loadOrCreate d, d)

def runOps (s : IndexState × Disk) (ops : List StoreOp) : IndexState × Disk :=
  ops.foldl runOp s

/-- The index/metadata invariant: `len(meta) == index.ntotal`. -/
def consistent (st : IndexState) : Prop :=
  st.meta.length = st.vectors.length

/-- The persisted pair, when present, satisfies the same invariant. -/
def diskConsistent (d : Disk) : Prop :=
  ∀ vs ms, d.files = some (vs, ms) → ms.length = vs.length

/-! ### Exact L2 search -/

/-- Squared Euclidean distance, the metric of `IndexFlatL2`. -/
def sqDist (a b : Vec) : ℚ :=
  ((a.zip b).map (fun p => (p.1 - p.2) ^ 2)).sum

/-- Compare candidate hits by distance. -/
def distLE (a b : ℕ × ℚ) : Prop := a.2 ≤ b.2

instance : DecidableRel distLE := fun a b => inferInstanceAs (Decidable (a.2 ≤ b.2))

instance : IsTotal (ℕ × ℚ) distLE := ⟨fun a b => le_total a.2 b.2⟩

instance : IsTrans (ℕ × ℚ) distLE := ⟨fun _ _ _ h h' => le_trans h h'⟩

/-- `index.search(query, k)` on a flat L2 index: every stored vector is scored
by squared distance to the query, candidates are ordered by ascending
distance, and the first `k` are returned as (stored position, distance). -/
def faissSearch (vecs : List Vec) (q : Vec) (k : ℕ) : List (ℕ × ℚ) :=
  (List.insertionSort distLE ((vecs.enum).map (fun p => (p.1, sqDist q p.2)))).take k

/-- `meta[idx]["text"][:150] + "..." if len(...) > 150 else ...`. -/
def truncText (s : String) : String :=
  if s.length > 150 then s.take 150 ++ "..." else s

/-- One entry of the `precedents` list returned to callers. -/
structure PrecedentOut where
  text : String
  distance : ℚ
  case_id : String
  similarity_score : ℚ
  deriving DecidableEq, Repr

def mkPrecedentOut (meta : List MetaEntry) (h : ℕ × ℚ) : PrecedentOut :=
  let entry := meta.getD h.1 ⟨"", ""⟩
  ⟨truncText entry.text, h.2, entry.id, 1 / (1 + h.2)⟩

/-- The result loop shared by `analyze` and `search_precedents`: each hit is
kept only `if idx < len(meta)` and rendered with truncated text, raw distance,
case id and `1 / (1 + dist)` similarity. -/
def hitsToPrecedents (meta : List MetaEntry) (hits : List (ℕ × ℚ)) : List PrecedentOut :=
  hits.filterMap (fun h => if h.1 < meta.length then some (mkPrecedentOut meta h) else none)

/-- The search block common to `analyze` (agent1_inlegal_faiss.py) and
`search_precedents` (inlegalbert_helper.py): empty metadata short-circuits to
`[]`; otherwise `k = min(top_k, len(meta))` hits are fetched and rendered. -/
def searchIndex (st : IndexState) (q : Vec) (top_k : ℕ) : List PrecedentOut :=
  if st.meta.length = 0 then []
  else hitsToPrecedents st.meta (faissSearch st.vectors q (min top_k st.meta.length))

/-! ### Model availability and the two embedding front ends -/

structure NerToken where
  token : String
  label_id : ℤ
  deriving DecidableEq, Repr

/-- Global model state: which components loaded (`TRANSFORMERS_AVAILABLE`,
`tokenizer`, `embed_model`, `ner_model`) plus the pure encoding/tagging
functions the loaded models compute. -/
structure ModelState where
  transformers : Bool
  tokenizer : Bool
  encoder : Bool
  ner : Bool
  encode : String → Vec
  nerTag : String → List NerToken

inductive AgentError where
  | badRequest (detail : String)
  | serviceUnavailable (detail : String)
  | serverError (detail : String)
  deriving DecidableEq, Repr

/-- `embed_text` of inlegalbert_helper.py: returns `None` (never raises) when
transformers, the tokenizer or the embed model is unavailable. -/
def helperEmbedText (m : ModelState) (text : String) : Option Vec :=
  if m.transformers = false ∨ m.tokenizer = false ∨ m.encoder = false then none
  else some (m.encode text)

/-- `perform_ner` of inlegalbert_helper.py: returns `[]` when transformers,
the tokenizer or the NER model is unavailable. -/
def performNer (m : ModelState) (text : String) : List NerToken :=
  if m.transformers = false ∨ m.tokenizer = false ∨ m.ner = false then []
  else m.nerTag text

/-- `search_precedents` of inlegalbert_helper.py: degrades to `[]` when
transformers are absent or embedding yields `None`; otherwise loads the store
and runs the shared search block. -/
def searchPrecedents (m : ModelState) (st : IndexState) (text : String) (top_k : ℕ) :
    List PrecedentOut :=
  if m.transformers = false then []
  else
    match helperEmbedText m text with
    | none => []
    | some emb => searchIndex st emb top_k

/-- `embed_text` of agent1_inlegal_faiss.py: raises HTTP 503 when the
tokenizer or embed model is not loaded. -/
def faissEmbedText (m : ModelState) (text : String) : Except AgentError Vec :=
  if m.tokenizer = false ∨ m.encoder = false then
    .error (.serviceUnavailable "Models not loaded. Please check installation.")
  else .ok (m.encode text)

structure AnalyzeRequest where
  text : String
  top_k_precedents : ℤ := 5
  deriving DecidableEq, Repr

structure AnalyzeResponse where
  ner : List NerToken
  embedding_dim : ℕ
  precedents : List PrecedentOut
  total_precedents_in_db : ℕ
  deriving DecidableEq, Repr

/-- The `/analyze` endpoint of agent1_inlegal_faiss.py: validate text and
`top_k_precedents`, embed (503 when models missing), optionally tag, then
search the loaded store. -/
def analyze (m : ModelState) (st : IndexState) (req : AnalyzeRequest) :
    Except AgentError AnalyzeResponse :=
  if req.text = "" then .error (.badRequest "Text is required")
  else if req.top_k_precedents < 1 ∨ 100 < req.top_k_precedents then
    .error (.badRequest "top_k_precedents must be between 1 and 100")
  else
    match faissEmbedText m req.text with
    | .error e => .error e
    | .ok emb =>
        let nerOut := if m.ner then m.nerTag req.text else []
        .ok ⟨nerOut, emb.length, searchIndex st emb req.top_k_precedents.toNat,
             st.meta.length⟩

/-- The id `add_precedent` assigns when the request omits `"id"`:
`f"case_{len(text)}"`. -/
def genCaseId (text : String) : String :=
  "case_" ++ toString text.length

/-- `case_id = data.get("id", f"case_{len(text)}")`. -/
def addPrecedentId (given : Option String) (text : String) : String :=
  given.getD (genCaseId text)

/-! ## Precedent and fact/issue aggregation (agent1.py, `analyze_case`) -/

/-- A retrieved precedent dict as aggregated in `all_precedents`. -/
structure Precedent where
  case_id : String
  text : String
  distance : ℚ
  similarity_score : ℚ
  deriving DecidableEq, Repr

/-- A key of the Python dict `seen_precedents`.  String `case_id` keys and
integer `hash(text)` keys never compare equal in Python, so the dict key space
is a disjoint sum; `hash` is modelled by the text itself (deterministic within
a run, equal texts hash equal). -/
inductive PrecKey where
  | byId (s : String)
  | byContent (t : String)
  deriving DecidableEq, Repr

/-- The key under which `analyze_case` dedups a precedent: its `case_id` when
truthy, otherwise `hash` of its text. -/
def precKey (p : Precedent) : PrecKey :=
  if p.case_id ≠ "" then .byId p.case_id else .byContent p.text

/-- The `seen_precedents` loop of `analyze_case`: keep a precedent only when
its key was not seen before (dict insertion order preserved). -/
def dedupPrecedentsGo (seen : List PrecKey) : List Precedent → List Precedent
  | [] => []
  | p :: rest =>
    if precKey p ∈ seen then dedupPrecedentsGo seen rest
    else p :: dedupPrecedentsGo (precKey p :: seen) rest

def dedupPrecedents (l : List Precedent) : List Precedent :=
  dedupPrecedentsGo [] l

/-- Order precedents by similarity score, higher first
(`sort(key=..., reverse=True)`). -/
def scoreGE (a b : Precedent) : Prop := b.similarity_score ≤ a.similarity_score

instance : DecidableRel scoreGE :=
  fun a b => inferInstanceAs (Decidable (b.similarity_score ≤ a.similarity_score))

instance : IsTotal Precedent scoreGE := ⟨fun a b => le_total b.similarity_score a.similarity_score⟩

instance : IsTrans Precedent scoreGE := ⟨fun _ _ _ h h' => le_trans h' h⟩

/-- The precedent pipeline of `analyze_case`: dedup by key, sort by similarity
score descending, keep `unique_precedents[:10]`. -/
def aggregatePrecedents (l : List Precedent) : List Precedent :=
  (List.insertionSort scoreGE (dedupPrecedents l)).take 10

structure LegalIssue where
  issue : String
  severity : String
  description : String
  deriving DecidableEq, Repr

/-- The placeholder issue substituted when no legal issues were extracted. -/
def fallbackIssue : LegalIssue :=
  ⟨"Case evidence analysis", "medium",
   "Evidence files have been processed and analyzed. Review extracted information for legal issues."⟩

/-- The placeholder fact substituted when no key facts were extracted:
`f"Evidence files processed: {len(files)} files"`. -/
def fallbackFact (nFiles : ℕ) : String :=
  "Evidence files processed: " ++ toString nFiles ++ " files"

/-- `key_facts` as assembled into the response: fallback when empty, then
`[:20]`. -/
def finalizeFacts (facts : List String) (nFiles : ℕ) : List String :=
  (if facts.isEmpty then [fallbackFact nFiles] else facts).take 20

/-- `legal_issues_identified` as assembled into the response: fallback when
empty, then `[:10]`. -/
def finalizeIssues (issues : List LegalIssue) : List LegalIssue :=
  (if issues.isEmpty then [fallbackIssue] else issues).take 10

/-! ### Concrete instances used to exercise the theorems -/

/-- A store-operation script: fresh load, two adds, a persist, a reload. -/
def exOps : List StoreOp :=
  [.loadOrCreate, .add [1, 2] "p1" "first precedent", .persist,
   .add [0, 1] "p2" "second precedent", .loadOrCreate]

/-- A two-entry store (one-dimensional vectors suffice for exact search). -/
def exSt : IndexState := ⟨[[1], [0]], [⟨"p1", "text one"⟩, ⟨"p2", "text two"⟩]⟩

/-- The spec scenario: two documents mention the same person with differing
case and roles. -/
def exJohnSmith : List EntityMention :=
  [⟨some "John Smith", "witness"⟩, ⟨some "john smith", "defendant"⟩]

/-- Two retrieved precedents with no id and identical text. -/
def exDupPrec : List Precedent := [⟨"", "same text", 1, 1⟩, ⟨"", "same text", 2, 0⟩]

/-- The degenerate empty-id/empty-text pair. -/
def exDegenerate : List Precedent := [⟨"", "", 0, 0⟩, ⟨"", "", 1, 0⟩]

/-- Transformers importable but no model loaded. -/
def noModels : ModelState := ⟨true, false, false, false, fun _ => [], fun _ => []⟩

/-- Tokenizer and embedding model loaded, NER model absent. -/
def loadedModels : ModelState := ⟨true, true, true, false, fun _ => [0, 0], fun _ => []⟩

/-- A single mention whose dict has no "name" field. -/
def exNoName : List EntityMention := [⟨none, "witness"⟩]

/-- Two mentions with distinct non-empty lowercased names. -/
def exClean : List EntityMention := [⟨some "alice", "witness"⟩, ⟨some "bob", "defendant"⟩]

/-- Per-kind lists each containing a mention with an empty name key. -/
def exWithEmpty : Entities :=
  ⟨[⟨none, "w"⟩, ⟨some "alice", "w"⟩], [⟨some "", "org"⟩], [⟨none, "loc"⟩]⟩

/-! ### Helper lemmas about the dedup loop -/

theorem dedupGo_sublist (seen : List String) (l : List EntityMention) :
    (dedupGo seen l).Sublist l := by
  induction l generalizing seen with
  | nil => simp [dedupGo]
  | cons e rest ih =>
    simp only [dedupGo]
    split
    · exact (ih (nameKey e :: seen)).cons₂ e
    · exact (ih seen).cons e

theorem mem_dedupGo (seen : List String) (l : List EntityMention)
    (e : EntityMention) (he : e ∈ dedupGo seen l) :
    nameKey e ≠ "" ∧ nameKey e ∉ seen := by
  induction l generalizing seen with
  | nil => simp [dedupGo] at he
  | cons a rest ih =>
    simp only [dedupGo] at he
    split at he
    · rename_i hcond
      rcases List.mem_cons.mp he with rfl | htail
      · exact hcond
      · have h := ih (nameKey a :: seen) htail
        exact ⟨h.1, fun hs => h.2 (List.mem_cons_of_mem _ hs)⟩
    · exact ih seen he

theorem dedupGo_pairwise (seen : List String) (l : List EntityMention) :
    (dedupGo seen l).Pairwise (fun a b => nameKey a ≠ nameKey b) := by
  induction l generalizing seen with
  | nil => simp [dedupGo]
  | cons a rest ih =>
    simp only [dedupGo]
    split
    · refine List.Pairwise.cons ?_ (ih (nameKey a :: seen))
      intro b hb hkey
      exact (mem_dedupGo _ _ b hb).2 (hkey ▸ List.mem_cons_self _ _)
    · exact ih seen

theorem dedupGo_find? (seen : List String) (l : List EntityMention)
    (k : String) (hk : k ≠ "") (hs : k ∉ seen) :
    (dedupGo seen l).find? (fun e => nameKey e == k) =
      l.find? (fun e => nameKey e == k) := by
  induction l generalizing seen with
  | nil => simp [dedupGo]
  | cons a rest ih =>
    simp only [dedupGo]
    by_cases hmatch : nameKey a = k
    · have hcond : nameKey a ≠ "" ∧ nameKey a ∉ seen := by
        rw [hmatch]; exact ⟨hk, hs⟩
      rw [if_pos hcond]
      simp [List.find?, hmatch]
    · have hbeq : (nameKey a == k) = false := beq_eq_false_iff_ne.mpr hmatch
      split

      · rename_i hcond
        simp only [List.find?, hbeq]
        exact ih (nameKey a :: seen)
          (fun h => (List.mem_cons.mp h).elim (fun h' => hmatch h'.symm) hs)
      · simp only [List.find?, hbeq]
        exact ih seen hs

theorem dedupGo_id (seen : List String) (l : List EntityMention)
    (hne : ∀ e ∈ l, nameKey e ≠ "" ∧ nameKey e ∉ seen)
    (hp : l.Pairwise (fun a b => nameKey a ≠ nameKey b)) :
    dedupGo seen l = l := by
  induction l generalizing seen with
  | nil => simp [dedupGo]
  | cons a rest ih =>
    have ha := hne a (List.mem_cons_self _ _)
    simp only [dedupGo, if_pos ha]
    refine congrArg (a :: ·) (ih (nameKey a :: seen) ?_ hp.of_cons)
    intro e he
    have h := hne e (List.mem_cons_of_mem _ he)
    refine ⟨h.1, fun hmem => ?_⟩
    rcases List.mem_cons.mp hmem with heq | hmem'
    · exact (List.pairwise_cons.mp hp).1 e he heq.symm
    · exact h.2 hmem'

/-! ### Lemmas about exact search -/

theorem fst_lt_of_mem_enumBase {α : Type} :
    ∀ (n : ℕ) (l : List α) (p : ℕ × α), p ∈ l.enumFrom n → p.1 < n + l.length := by
  intro n l
  induction l generalizing n with
  | nil => intro p hp; simp [List.enumFrom] at hp
  | cons a rest ih =>
    intro p hp
    simp only [List.enumFrom] at hp
    rcases List.mem_cons.mp hp with rfl | h
    · simp
    · have := ih (n + 1) p h
      simp only [List.length_cons]
      omega

theorem faissSearch_length (vecs : List Vec) (q : Vec) (k : ℕ) :
    (faissSearch vecs q k).length = min k vecs.length := by
  simp [faissSearch, List.length_take, List.length_insertionSort, List.enum_length]

theorem faissSearch_sorted (vecs : List Vec) (q : Vec) (k : ℕ) :
    (faissSearch vecs q k).Pairwise distLE :=
  (List.sorted_insertionSort distLE _).sublist (List.take_sublist _ _)

theorem faissSearch_fst_lt (vecs : List Vec) (q : Vec) (k : ℕ) :
    ∀ x ∈ faissSearch vecs q k, x.1 < vecs.length := by
  intro x hx
  have hx' := List.mem_of_mem_take hx
  have hx'' := ((List.perm_insertionSort distLE _).mem_iff).mp hx'
  obtain ⟨p, hp, rfl⟩ := List.mem_map.mp hx''
  have hlt := fst_lt_of_mem_enumBase 0 vecs p hp
  simpa using hlt

theorem hitsToPrecedents_eq_map (meta : List MetaEntry) (hits : List (ℕ × ℚ))
    (h : ∀ x ∈ hits, x.1 < meta.length) :
    hitsToPrecedents meta hits = hits.map (mkPrecedentOut meta) := by
  induction hits with
  | nil => rfl
  | cons a rest ih =>
    have ha := h a (List.mem_cons_self _ _)
    have ih' := ih (fun x hx => h x (List.mem_cons_of_mem _ hx))
    simp only [hitsToPrecedents, List.filterMap_cons, if_pos ha, List.map_cons]
    simp only [hitsToPrecedents] at ih'
    rw [ih']

theorem searchIndex_length (st : IndexState) (q : Vec) (k : ℕ) (hc : consistent st) :
    (searchIndex st q k).length = min k st.meta.length := by
  by_cases h0 : st.meta.length = 0
  · simp [searchIndex, h0]
  · have hb : ∀ x ∈ faissSearch st.vectors q (min k st.meta.length), x.1 < st.meta.length := by
      intro x hx
      have := faissSearch_fst_lt st.vectors q _ x hx
      rw [consistent] at hc
      omega
    rw [searchIndex, if_neg h0, hitsToPrecedents_eq_map _ _ hb, List.length_map,
      faissSearch_length]
    rw [consistent] at hc
    rw [← hc, min_assoc, min_self]

theorem searchIndex_sorted (st : IndexState) (q : Vec) (k : ℕ) (hc : consistent st) :
    (searchIndex st q k).Pairwise (fun a b => a.distance ≤ b.distance) := by
  by_cases h0 : st.meta.length = 0
  · simp [searchIndex, h0]
  · have hb : ∀ x ∈ faissSearch st.vectors q (min k st.meta.length), x.1 < st.meta.length := by
      intro x hx
      have := faissSearch_fst_lt st.vectors q _ x hx
      rw [consistent] at hc
      omega
    rw [searchIndex, if_neg h0, hitsToPrecedents_eq_map _ _ hb, List.pairwise_map]
    exact faissSearch_sorted st.vectors q _

/-! ### Lemmas about the store operations -/

theorem runOp_preserves (st : IndexState) (d : Disk) (op : StoreOp)
    (h1 : consistent st) (h2 : diskConsistent d) :
    consistent (runOp (st, d) op).1 ∧ diskConsistent (runOp (st, d) op).2 := by
  cases op with
  | add v id text =>
    refine ⟨?_, h2⟩
    simp [runOp, addRecord, consistent] at h1 ⊢
    exact h1
  | persist =>
    refine ⟨h1, ?_⟩
    intro vs ms h
    simp only [runOp, persistIndex] at h
    obtain ⟨h3, h4⟩ := Prod.mk.injEq .. ▸ (Option.some.injEq .. ▸ h :
      (st.vectors, st.meta) = (vs, ms))
    rw [← h3, ← h4]
    exact h1
  | loadOrCreate =>
    refine ⟨?_, h2⟩
    simp only [runOp, loadOrCreate]
    match hd : d.files with
    | some (vs, ms) => exact h2 vs ms hd
    | none => rfl

/-! ### Lemmas about the precedent dedup loop -/

theorem mem_dedupPrecedentsGo (seen : List PrecKey) (l : List Precedent)
    (p : Precedent) (hp : p ∈ dedupPrecedentsGo seen l) : precKey p ∉ seen := by
  induction l generalizing seen with
  | nil => simp [dedupPrecedentsGo] at hp
  | cons a rest ih =>
    simp only [dedupPrecedentsGo] at hp
    split at hp
    · exact ih seen hp
    · rcases List.mem_cons.mp hp with rfl | htail
      · assumption
      · exact fun hs => ih (precKey a :: seen) htail (List.mem_cons_of_mem _ hs)

theorem dedupPrecedentsGo_pairwise (seen : List PrecKey) (l : List Precedent) :
    (dedupPrecedentsGo seen l).Pairwise (fun a b => precKey a ≠ precKey b) := by
  induction l generalizing seen with
  | nil => simp [dedupPrecedentsGo]
  | cons a rest ih =>
    simp only [dedupPrecedentsGo]
    split
    · exact ih seen
    · refine List.Pairwise.cons ?_ (ih (precKey a :: seen))
      intro b hb hkey
      exact mem_dedupPrecedentsGo _ _ b hb (hkey ▸ List.mem_cons_self _ _)

theorem dedupPrecedentsGo_sublist (seen : List PrecKey) (l : List Precedent) :
    (dedupPrecedentsGo seen l).Sublist l := by
  induction l generalizing seen with
  | nil => simp [dedupPrecedentsGo]
  | cons a rest ih =>
    simp only [dedupPrecedentsGo]
    split
    · exact (ih seen).cons a
    · exact (ih (precKey a :: seen)).cons₂ a

theorem dedupPrecedentsGo_covers (seen : List PrecKey) (l : List Precedent) :
    ∀ p ∈ l, precKey p ∈ seen ∨ ∃ q ∈ dedupPrecedentsGo seen l, precKey q = precKey p := by
  induction l generalizing seen with
  | nil => simp
  | cons a rest ih =>
    intro p hp
    simp only [dedupPrecedentsGo]
    rcases List.mem_cons.mp hp with rfl | htail
    · by_cases hs : precKey p ∈ seen
      · exact Or.inl hs
      · rw [if_neg hs]
        exact Or.inr ⟨p, List.mem_cons_self _ _, rfl⟩
    · by_cases hs : precKey a ∈ seen
      · rw [if_pos hs]
        exact ih seen p htail
      · rw [if_neg hs]
        rcases ih (precKey a :: seen) p htail with hmem | ⟨q, hq, hqk⟩
        · rcases List.mem_cons.mp hmem with heq | hmem'
          · exact Or.inr ⟨a, List.mem_cons_self _ _, heq.symm⟩
          · exact Or.inl hmem'
        · exact Or.inr ⟨q, List.mem_cons_of_mem _ hq, hqk⟩

theorem aggregatePrecedents_sorted (l : List Precedent) :
    (aggregatePrecedents l).Pairwise (fun a b => b.similarity_score ≤ a.similarity_score) :=
  (List.sorted_insertionSort scoreGE _).sublist (List.take_sublist _ _)

theorem aggregatePrecedents_length (l : List Precedent) :
    (aggregatePrecedents l).length = min 10 (dedupPrecedents l).length := by
  simp [aggregatePrecedents, List.length_take, List.length_insertionSort]

/-! ## The claims -/

/-- Claim C1: for every sequence of Add, Persist and LoadOrCreate operations
on the vector index store, after each operation the length of the metadata
list equals the number of vectors stored in the index; the persisted pair,
when present, satisfies the same invariant. -/
theorem c1_index_meta_invariant (st : IndexState) (d : Disk) (ops : List StoreOp)
    (h1 : consistent st) (h2 : diskConsistent d) :
    consistent (runOps (st, d) ops).1 ∧ diskConsistent (runOps (st, d) ops).2 := by
  induction ops generalizing st d with
  | nil => exact ⟨h1, h2⟩
  | cons op rest ih =>
    have h := runOp_preserves st d op h1 h2
    exact ih _ _ h.1 h.2

/-- Witness for C1: the invariant holds after a concrete script of five store
operations starting from an empty store and an empty disk. -/
theorem c1_witness :
    consistent (runOps (⟨[], []⟩, ⟨none⟩) exOps).1 ∧
    diskConsistent (runOps (⟨[], []⟩, ⟨none⟩) exOps).2 :=
  c1_index_meta_invariant ⟨[], []⟩ ⟨none⟩ exOps rfl (fun _ _ h => nomatch h)

/-- Claim C2: for every index state and query vector, search with requested
k ≥ 1 returns exactly min(k, indexSize) results, with distances in
non-decreasing order, and on an empty index it returns the empty list. -/
theorem c2_search_contract (st : IndexState) (q : Vec) (k : ℕ)
    (hc : consistent st) (_hk : 1 ≤ k) :
    (searchIndex st q k).length = min k st.meta.length ∧
    ((searchIndex st q k).Pairwise fun a b => a.distance ≤ b.distance) ∧
    (st.meta.length = 0 → searchIndex st q k = []) :=
  ⟨searchIndex_length st q k hc, searchIndex_sorted st q k hc,
   fun h0 => by simp [searchIndex, h0]⟩

/-- Witness for C2: searching a concrete two-entry store with k = 5. -/
theorem c2_witness :
    (searchIndex exSt [0] 5).length = min 5 exSt.meta.length ∧
    ((searchIndex exSt [0] 5).Pairwise fun a b => a.distance ≤ b.distance) ∧
    (exSt.meta.length = 0 → searchIndex exSt [0] 5 = []) :=
  c2_search_contract exSt [0] 5 rfl (by decide)

/-- Claim C3: entity aggregation keys each mention by its lowercased name,
keeps the first occurrence's full record in document order, and discards every
later mention with the same key: the output is a sublist of the input with
pairwise-distinct keys, and for every non-empty key the surviving record is
exactly the first input record bearing that key. -/
theorem c3_entity_first_seen (l : List EntityMention) (k : String) (hk : k ≠ "") :
    (dedupEntities l).Sublist l ∧
    ((dedupEntities l).Pairwise fun a b => nameKey a ≠ nameKey b) ∧
    (dedupEntities l).find? (fun e => nameKey e == k) = l.find? (fun e => nameKey e == k) :=
  ⟨dedupGo_sublist [] l, dedupGo_pairwise [] l,
   dedupGo_find? [] l k hk (List.not_mem_nil k)⟩

/-- Witness for C3: merging the "John Smith"/"john smith" documents yields
exactly one record, the first-seen one with role "witness". -/
theorem c3_witness :
    dedupEntities exJohnSmith = [⟨some "John Smith", "witness"⟩] ∧
    (dedupEntities exJohnSmith).find? (fun e => nameKey e == "john smith") =
      exJohnSmith.find? (fun e => nameKey e == "john smith") :=
  ⟨by decide, (c3_entity_first_seen exJohnSmith "john smith" (by decide)).2.2⟩

/-- Claim C4: precedent dedup keys by id when non-empty and by a
content-derived key of the text when the id is empty (identical-text/no-id
records collapse, including the degenerate empty/empty case); the surviving
records have pairwise-distinct keys while every input key stays represented,
and the output is sorted by similarity score descending and capped to 10. -/
theorem c4_precedent_dedup_rank (l : List Precedent) :
    ((aggregatePrecedents l).Pairwise fun a b => b.similarity_score ≤ a.similarity_score) ∧
    (aggregatePrecedents l).length = min 10 (dedupPrecedents l).length ∧
    ((dedupPrecedents l).Pairwise fun a b => precKey a ≠ precKey b) ∧
    (dedupPrecedents l).Sublist l ∧
    ∀ p ∈ l, ∃ q ∈ dedupPrecedents l, precKey q = precKey p := by
  refine ⟨aggregatePrecedents_sorted l, aggregatePrecedents_length l,
    dedupPrecedentsGo_pairwise [] l, dedupPrecedentsGo_sublist [] l, ?_⟩
  intro p hp
  rcases dedupPrecedentsGo_covers [] l p hp with hmem | h
  · exact absurd hmem (List.not_mem_nil _)
  · exact h

/-- Witness for C4: two no-id precedents with identical text collapse to one
entry, as does the degenerate empty-id/empty-text pair. -/
theorem c4_witness :
    (dedupPrecedents exDupPrec).length = 1 ∧
    (dedupPrecedents exDegenerate).length = 1 ∧
    (∃ q ∈ dedupPrecedents exDupPrec, precKey q = precKey ⟨"", "same text", 2, 0⟩) :=
  ⟨by decide, by decide,
   (c4_precedent_dedup_rank exDupPrec).2.2.2.2 ⟨"", "same text", 2, 0⟩ (by decide)⟩

/-- Counterexample to C5: with the models not loaded, the standalone FAISS
service's `embed_text` does surface a failure to its caller — it raises
HTTP 503 rather than degrading to an empty result. -/
theorem c5_counterexample :
    faissEmbedText noModels "case text" =
      .error (.serviceUnavailable "Models not loaded. Please check installation.") := rfl

/-- Claim C5 as amended: in the helper module, model unavailability is never
surfaced — embedding degrades to `none`, precedent search and token tagging
degrade to `[]` — while the standalone FAISS service's `embed_text` instead
raises a 503 error. -/
theorem c5_amended_helper_degrades (m : ModelState) (st : IndexState) (text : String) (k : ℕ) :
    (m.encoder = false → helperEmbedText m text = none ∧ searchPrecedents m st text k = []) ∧
    (m.ner = false → performNer m text = []) := by
  constructor
  · intro h
    have he : helperEmbedText m text = none := by
      simp [helperEmbedText, h]
    refine ⟨he, ?_⟩
    by_cases ht : m.transformers = false
    · simp [searchPrecedents, ht]
    · simp [searchPrecedents, ht, he]
  · intro h
    simp [performNer, h]

/-- Witness for the amended C5, at a model state with nothing loaded. -/
theorem c5_amended_witness :
    (helperEmbedText noModels "x" = none ∧ searchPrecedents noModels ⟨[], []⟩ "x" 5 = []) ∧
    performNer noModels "x" = [] :=
  ⟨(c5_amended_helper_degrades noModels ⟨[], []⟩ "x" 5).1 rfl,
   (c5_amended_helper_degrades noModels ⟨[], []⟩ "x" 5).2 rfl⟩

/-- Claim C6: an analyze request with empty text or with `top_k_precedents`
outside [1, 100] is rejected with a validation error (never clamped), while a
valid request with topK = 5 against a two-entry index returns exactly two
results. -/
theorem c6_topk_validation (m : ModelState) (st : IndexState) (req : AnalyzeRequest) :
    ((req.text = "" ∨ req.top_k_precedents < 1 ∨ 100 < req.top_k_precedents) →
      ∃ d, analyze m st req = .error (.badRequest d)) ∧
    (req.text ≠ "" → req.top_k_precedents = 5 → m.tokenizer = true → m.encoder = true →
      consistent st → st.meta.length = 2 →
      ∃ r, analyze m st req = .ok r ∧ r.precedents.length = 2) := by
  constructor
  · intro h
    by_cases ht : req.text = ""
    · exact ⟨"Text is required", by simp [analyze, ht]⟩
    · have hk : req.top_k_precedents < 1 ∨ 100 < req.top_k_precedents := h.resolve_left ht
      refine ⟨"top_k_precedents must be between 1 and 100", ?_⟩
      rw [analyze]
      rw [if_neg ht, if_pos hk]
  · intro ht hk htok henc hc hm
    have hemb : faissEmbedText m req.text = .ok (m.encode req.text) := by
      simp [faissEmbedText, htok, henc]
    have hrange : ¬(req.top_k_precedents < 1 ∨ 100 < req.top_k_precedents) := by
      rw [hk]; decide
    refine ⟨⟨(if m.ner then m.nerTag req.text else []), (m.encode req.text).length,
        searchIndex st (m.encode req.text) req.top_k_precedents.toNat, st.meta.length⟩, ?_, ?_⟩
    · rw [analyze]
      rw [if_neg ht, if_neg hrange, hemb]
    · show (searchIndex st (m.encode req.text) req.top_k_precedents.toNat).length = 2
      rw [searchIndex_length st _ _ hc, hm, hk]
      rfl

/-- Witness for C6: topK = 0 and topK = 101 are rejected; topK = 5 on the
concrete two-entry store returns exactly two results. -/
theorem c6_witness :
    (∃ d, analyze loadedModels exSt ⟨"", 0⟩ = .error (.badRequest d)) ∧
    (∃ d, analyze loadedModels exSt ⟨"case text", 101⟩ = .error (.badRequest d)) ∧
    (∃ r, analyze loadedModels exSt ⟨"case text", 5⟩ = .ok r ∧ r.precedents.length = 2) :=
  ⟨(c6_topk_validation loadedModels exSt ⟨"", 0⟩).1 (Or.inl rfl),
   (c6_topk_validation loadedModels exSt ⟨"case text", 101⟩).1 (Or.inr (Or.inr (by decide))),
   (c6_topk_validation loadedModels exSt ⟨"case text", 5⟩).2 (by decide) rfl rfl rfl rfl rfl⟩

/-- Claim C7, evaluated at the failing input: when the id is omitted,
`add_precedent` derives `case_` followed by the LENGTH of the text, so the
two distinct texts "ab" and "cd" both receive the id "case_2" — engine-derived
ids do collide for distinct precedents, violating the uniqueness claim. -/
theorem c7_generated_id_collision :
    "ab" ≠ "cd" ∧ addPrecedentId none "ab" = addPrecedentId none "cd" ∧
      addPrecedentId none "ab" = "case_2" := by decide

/-- Claim C8: if the merged facts list is empty the output is exactly the one
placeholder fact referencing the document count, and if the merged legal
issues list is empty the output is exactly the one placeholder issue. -/
theorem c8_never_empty_fallbacks (facts : List String) (issues : List LegalIssue) (nFiles : ℕ)
    (hf : facts = []) (hi : issues = []) :
    finalizeFacts facts nFiles = [fallbackFact nFiles] ∧
    finalizeIssues issues = [fallbackIssue] := by
  subst hf
  subst hi
  exact ⟨rfl, rfl⟩

/-- Witness for C8 at a three-document batch with nothing extracted. -/
theorem c8_witness :
    finalizeFacts [] 3 = [fallbackFact 3] ∧ finalizeIssues [] = [fallbackIssue] :=
  c8_never_empty_fallbacks [] [] 3 rfl rfl

/-- Counterexample to C9: a singleton list with a missing name is already
deduplicated in the claim's sense (no two mentions share a lowercased name),
yet dedup does not return it unchanged — the empty-keyed mention is dropped. -/
theorem c9_counterexample :
    (exNoName.Pairwise fun a b => nameKey a ≠ nameKey b) ∧
    dedupEntities exNoName ≠ exNoName := by decide

/-- Claim C9 as amended: on a list whose mentions all carry a non-empty
lowercased name key and share no key, dedup is the identity (hence dedup is
idempotent on its own outputs with such keys). -/
theorem c9_amended_idempotent (l : List EntityMention)
    (hne : ∀ e ∈ l, nameKey e ≠ "")
    (hp : l.Pairwise fun a b => nameKey a ≠ nameKey b) :
    dedupEntities l = l :=
  dedupGo_id [] l (fun e he => ⟨hne e he, List.not_mem_nil _⟩) hp

/-- Witness for the amended C9 on a concrete deduplicated list. -/
theorem c9_amended_witness : dedupEntities exClean = exClean :=
  c9_amended_idempotent exClean (by decide) (by decide)

/-- Claim C10: a mention whose name key is empty (missing "name" field or
empty string) never appears in the merged entity lists, for all three kinds. -/
theorem c10_empty_key_dropped (es : Entities) (e : EntityMention) (hk : nameKey e = "") :
    e ∉ (dedupAllEntities es).people ∧ e ∉ (dedupAllEntities es).organizations ∧
      e ∉ (dedupAllEntities es).locations :=
  ⟨fun h => (mem_dedupGo [] es.people e h).1 hk,
   fun h => (mem_dedupGo [] es.organizations e h).1 hk,
   fun h => (mem_dedupGo [] es.locations e h).1 hk⟩

/-- Witness for C10: the nameless mention of the concrete batch is absent from
every merged kind. -/
theorem c10_witness :
    (⟨none, "w"⟩ : EntityMention) ∉ (dedupAllEntities exWithEmpty).people ∧
    (⟨none, "w"⟩ : EntityMention) ∉ (dedupAllEntities exWithEmpty).organizations ∧
    (⟨none, "w"⟩ : EntityMention) ∉ (dedupAllEntities exWithEmpty).locations :=
  c10_empty_key_dropped exWithEmpty ⟨none, "w"⟩ rfl

end JudicialCore
